import Mathlib

/-!
Verification development for the Four-Dot Rectifier core (src/app.py).

The repository's geometric core consists of three Python functions:

* `_order_corners_tl_tr_br_bl_np` — labels four unordered 2D points as
  TL/TR/BR/BL by sorting on the y coordinate, splitting into a top and a
  bottom pair, and sorting each pair on the x coordinate;
* `_warp_by_corners` — computes a destination canvas from physical
  millimetre measurements and a dpi value, orders the source corners,
  solves a homography and warps the source image to the canvas (with an
  optional extra same-size resample when `enforce_axes` is set);
* `_align_image_by_edge` — rotates an image so the segment between two
  picked points becomes horizontal or vertical, choosing the candidate
  rotation of minimal absolute value, and expands the canvas so that no
  content is cropped.

Floating-point values are embedded as rationals.  The transcendental
pieces (the homography solve, the resampling kernel of
`cv2.warpPerspective` / `cv2.warpAffine`) enter the model as explicit
function parameters: every theorem below holds for an arbitrary
resampling kernel and solver, which is exactly what the source
guarantees about dimensions and control flow.  `math.atan2` and the
cosine / sine entries of the rotation matrix are modelled exactly at the
arguments whose degree measure (respectively cosine value) is rational —
these are the only arguments the concrete claims exercise — and are left
undefined (`Option.none`) elsewhere, where no rational value exists.
-/

namespace Rectifier

/-- A 2D point in image pixel space (origin top-left, y grows downward),
coordinates embedded as rationals. -/
structure Pt where
  x : ℚ
  y : ℚ
deriving DecidableEq

/-- Comparison on the y coordinate, the key of the first sort in
`_order_corners_tl_tr_br_bl_np` (`np.argsort(pts[:, 1])`). -/
def leY (a b : Pt) : Prop := a.y ≤ b.y

/-- Comparison on the x coordinate, the key of the within-pair sorts in
`_order_corners_tl_tr_br_bl_np` (`np.argsort(top_two[:, 0])`). -/
def leX (a b : Pt) : Prop := a.x ≤ b.x

instance : DecidableRel leY := fun a b => inferInstanceAs (Decidable (a.y ≤ b.y))

instance : DecidableRel leX := fun a b => inferInstanceAs (Decidable (a.x ≤ b.x))

instance : IsTotal Pt leY := ⟨fun a b => le_total a.y b.y⟩

instance : IsTrans Pt leY := ⟨fun _ _ _ h1 h2 => le_trans h1 h2⟩

instance : IsTotal Pt leX := ⟨fun a b => le_total a.x b.x⟩

instance : IsTrans Pt leX := ⟨fun _ _ _ h1 h2 => le_trans h1 h2⟩

/-- Stable sort of the points by ascending y.  `np.argsort` (default kind)
runs a stable insertion sort on arrays of fewer than 16 elements, so on the
4-point inputs of the source it computes exactly the stable y-sort. -/
def sortY (l : List Pt) : List Pt := l.insertionSort leY

/-- `_order_corners_tl_tr_br_bl_np` (src/app.py lines 16-44): sort the
points by y, split into the top two and bottom two, sort each pair by x,
and return `[tl, tr, br, bl]` — the top pair left-to-right followed by the
bottom pair right-to-left. -/
def orderCorners (l : List Pt) : List Pt :=
  let s := sortY l
  let top := (s.take 2).insertionSort leX
  let bottom := (s.drop 2).insertionSort leX
  top ++ bottom.reverse

/-- Cross product of `a - o` and `b - o`, in screen coordinates. -/
def cross (o a b : Pt) : ℚ :=
  (a.x - o.x) * (b.y - o.y) - (a.y - o.y) * (b.x - o.x)

/-- The four points, read in this cyclic order, form a strictly convex
(hence non-degenerate, non-self-intersecting) quadrilateral: the cross
products at all four vertices share one strict sign. -/
def IsConvexQuad (p0 p1 p2 p3 : Pt) : Prop :=
  (0 < cross p0 p1 p2 ∧ 0 < cross p1 p2 p3 ∧
    0 < cross p2 p3 p0 ∧ 0 < cross p3 p0 p1) ∨
  (cross p0 p1 p2 < 0 ∧ cross p1 p2 p3 < 0 ∧
    cross p2 p3 p0 < 0 ∧ cross p3 p0 p1 < 0)

/-- Element of a point list at an index, with a default. -/
def nthPt (l : List Pt) (i : ℕ) : Pt := l.getD i ⟨0, 0⟩

/-- The tie-freedom condition under which the y-sort / x-sort labelling is
insensitive to the input order: four points whose second smallest y is
strictly below the second largest y, so the top/bottom split is
unambiguous.  (No condition on the x coordinates is needed: inside a pair,
two distinct points with equal x have distinct y, so the stable y-sort
already fixes their relative order for every input permutation.) -/
def wellSplit (m : List Pt) : Bool :=
  let s := sortY m
  decide (m.length = 4) && decide ((nthPt s 1).y < (nthPt s 2).y)

/-! Helper lemmas about `orderCorners`. -/

theorem list_len4 {l : List Pt} (h : l.length = 4) :
    ∃ a b c d : Pt, l = [a, b, c, d] := by
  rcases l with _ | ⟨a, _ | ⟨b, _ | ⟨c, _ | ⟨d, _ | ⟨e, t⟩⟩⟩⟩⟩
  all_goals first
    | (exact ⟨a, b, c, d, rfl⟩)
    | (exfalso; simp at h)

theorem insertionSort_pair (u v : Pt) :
    List.insertionSort leX [u, v] =
      if u.x ≤ v.x then [u, v] else [v, u] := by
  by_cases h : u.x ≤ v.x <;>
    simp [List.insertionSort, List.orderedInsert, leX, h]

theorem insertionSort_pair_swap {u v : Pt} (h : u.x ≠ v.x) :
    List.insertionSort leX [v, u] = List.insertionSort leX [u, v] := by
  rw [insertionSort_pair, insertionSort_pair]
  rcases lt_or_gt_of_ne h with h1 | h1
  · rw [if_pos h1.le, if_neg (not_le.mpr h1)]
  · rw [if_neg (not_le.mpr h1), if_pos h1.le]

theorem orderCorners_perm (l : List Pt) : (orderCorners l).Perm l := by
  unfold orderCorners
  refine List.Perm.trans (List.Perm.append (List.perm_insertionSort _ _)
    (List.Perm.trans (List.reverse_perm _) (List.perm_insertionSort _ _))) ?_
  rw [List.take_append_drop]
  exact List.perm_insertionSort _ _

theorem pair_perm {a b c d : Pt} (h : List.Perm [a, b] [c, d]) :
    (a = c ∧ b = d) ∨ (a = d ∧ b = c) := by
  have ha : a ∈ [c, d] := h.mem_iff.mp (by simp)
  simp only [List.mem_cons, List.mem_singleton, List.not_mem_nil, or_false] at ha
  rcases ha with ha | ha
  · subst ha
    left
    refine ⟨rfl, ?_⟩
    have h2 : List.Perm [b] [d] := h.cons_inv
    simpa using h2
  · subst ha
    right
    refine ⟨rfl, ?_⟩
    have hsw : List.Perm [c, a] [a, c] := List.Perm.swap a c []
    have h2 : List.Perm [a, b] [a, c] := h.trans hsw
    have h3 : List.Perm [b] [c] := h2.cons_inv
    simpa using h3

theorem pt_ext {p q : Pt} (hx : p.x = q.x) (hy : p.y = q.y) : p = q := by
  cases p
  cases q
  simp_all

theorem orderCorners_eq_of_sortY {l : List Pt} {a b c d : Pt}
    (h : sortY l = [a, b, c, d]) :
    orderCorners l =
      List.insertionSort leX [a, b] ++ (List.insertionSort leX [c, d]).reverse := by
  simp only [orderCorners, h]
  rfl

/-- C1 (counterexample): the four points (0,0), (10,5), (0,10), (-10,5) form a
strictly convex, non-degenerate quadrilateral (a kite), yet two permutations
of them produce different TL/TR/BR/BL labelings from
`_order_corners_tl_tr_br_bl_np`, because the second and third points in the
y-order share the same y coordinate, so the top/bottom split depends on the
input order.  This refutes the claim that all 24 permutations of any convex
non-degenerate quadrilateral yield an identical labeled output. -/
theorem order_corners_not_perm_invariant_cex :
    IsConvexQuad ⟨0, 0⟩ ⟨10, 5⟩ ⟨0, 10⟩ ⟨-10, 5⟩ ∧
    List.Perm [(⟨0, 0⟩ : Pt), ⟨-10, 5⟩, ⟨0, 10⟩, ⟨10, 5⟩]
      [⟨0, 0⟩, ⟨10, 5⟩, ⟨0, 10⟩, ⟨-10, 5⟩] ∧
    orderCorners [(⟨0, 0⟩ : Pt), ⟨-10, 5⟩, ⟨0, 10⟩, ⟨10, 5⟩] ≠
      orderCorners [⟨0, 0⟩, ⟨10, 5⟩, ⟨0, 10⟩, ⟨-10, 5⟩] :=
  ⟨Or.inl (by norm_num [cross]), by decide, by decide⟩

/-- C1 (amended): for four points whose stable y-sort has a strict gap
between the second and third y values (`wellSplit`, the exact condition the
kite counterexample violates), every permutation of the points fed to
`_order_corners_tl_tr_br_bl_np` yields the identical TL/TR/BR/BL output.
In particular this holds for every convex non-degenerate quadrilateral
whose top/bottom split is unambiguous in this sense, x-ties within a pair
included. -/
theorem order_corners_perm_invariant (m l : List Pt) (hperm : List.Perm l m)
    (hws : wellSplit m = true) : orderCorners l = orderCorners m := by
  simp only [wellSplit, Bool.and_eq_true, decide_eq_true_eq] at hws
  obtain ⟨hlen, hsplit⟩ := hws
  have htlen : (sortY m).length = 4 := by
    rw [sortY, List.length_insertionSort]; exact hlen
  obtain ⟨a, b, c, d, ht⟩ := list_len4 htlen
  rw [ht] at hsplit
  simp only [nthPt, List.getD_cons_succ, List.getD_cons_zero] at hsplit
  have htsort : List.Sorted leY (sortY m) := List.sorted_insertionSort leY m
  rw [ht] at htsort
  simp only [List.sorted_cons, List.mem_cons, List.not_mem_nil, or_false,
    forall_eq_or_imp, forall_eq, List.sorted_nil, and_true, leY] at htsort
  obtain ⟨⟨hab, hac, had⟩, ⟨hbc, hbd⟩, hcd, -⟩ := htsort
  have hslen : (sortY l).length = 4 := by
    rw [sortY, List.length_insertionSort, hperm.length_eq, hlen]
  obtain ⟨a', b', c', d', hs⟩ := list_len4 hslen
  have hssort : List.Sorted leY (sortY l) := List.sorted_insertionSort leY l
  rw [hs] at hssort
  simp only [List.sorted_cons, List.mem_cons, List.not_mem_nil, or_false,
    forall_eq_or_imp, forall_eq, List.sorted_nil, and_true, leY] at hssort
  obtain ⟨⟨hab', hac', had'⟩, ⟨hbc', hbd'⟩, hcd', -⟩ := hssort
  have hst : List.Perm [a', b', c', d'] [a, b, c, d] := by
    rw [← hs, ← ht]
    exact (List.perm_insertionSort leY l).trans
      (hperm.trans (List.perm_insertionSort leY m).symm)
  have hys : List.Sorted (· ≤ · : ℚ → ℚ → Prop) [a'.y, b'.y, c'.y, d'.y] := by
    simp only [List.sorted_cons, List.mem_cons, List.not_mem_nil, or_false,
      forall_eq_or_imp, forall_eq, List.sorted_nil, and_true]
    exact ⟨⟨hab', hac', had'⟩, ⟨hbc', hbd'⟩, hcd', fun p hp => hp.elim⟩
  have hyt : List.Sorted (· ≤ · : ℚ → ℚ → Prop) [a.y, b.y, c.y, d.y] := by
    simp only [List.sorted_cons, List.mem_cons, List.not_mem_nil, or_false,
      forall_eq_or_imp, forall_eq, List.sorted_nil, and_true]
    exact ⟨⟨hab, hac, had⟩, ⟨hbc, hbd⟩, hcd, fun p hp => hp.elim⟩
  have hy : [a'.y, b'.y, c'.y, d'.y] = [a.y, b.y, c.y, d.y] :=
    List.eq_of_perm_of_sorted (by simpa using hst.map Pt.y) hys hyt
  obtain ⟨e1, e2, e3, e4⟩ : a'.y = a.y ∧ b'.y = b.y ∧ c'.y = c.y ∧ d'.y = d.y := by
    simpa using hy
  have hfil := hst.filter (fun q => decide (q.y ≤ b.y))
  have h1 : a'.y ≤ b.y := e1 ▸ hab
  have h2 : b'.y ≤ b.y := le_of_eq e2
  have h3 : ¬ (c'.y ≤ b.y) := by rw [e3]; exact not_le.mpr hsplit
  have h4 : ¬ (d'.y ≤ b.y) := by rw [e4]; exact not_le.mpr (lt_of_lt_of_le hsplit hcd)
  have hfs : List.filter (fun q => decide (q.y ≤ b.y)) [a', b', c', d'] = [a', b'] := by
    simp [List.filter, h1, h2, h3, h4]
  have hcb : ¬ (c.y ≤ b.y) := not_le.mpr hsplit
  have hdb : ¬ (d.y ≤ b.y) := not_le.mpr (lt_of_lt_of_le hsplit hcd)
  have hft : List.filter (fun q => decide (q.y ≤ b.y)) [a, b, c, d] = [a, b] := by
    simp [List.filter, hab, hcb, hdb]
  have htop : List.Perm [a', b'] [a, b] := by rw [← hfs, ← hft]; exact hfil
  have hfil2 := hst.filter (fun q => decide (b.y < q.y))
  have g1 : ¬ (b.y < a'.y) := by rw [e1]; exact not_lt.mpr hab
  have g2 : ¬ (b.y < b'.y) := by rw [e2]; exact lt_irrefl b.y
  have g3 : b.y < c'.y := e3 ▸ hsplit
  have g4 : b.y < d'.y := e4 ▸ lt_of_lt_of_le hsplit hcd
  have hgs : List.filter (fun q => decide (b.y < q.y)) [a', b', c', d'] = [c', d'] := by
    simp [List.filter, g1, g2, g3, g4]
  have hgt : List.filter (fun q => decide (b.y < q.y)) [a, b, c, d] = [c, d] := by
    simp [List.filter, not_lt.mpr hab, hsplit, lt_of_lt_of_le hsplit hcd]
  have hbot : List.Perm [c', d'] [c, d] := by rw [← hgs, ← hgt]; exact hfil2
  rw [orderCorners_eq_of_sortY hs, orderCorners_eq_of_sortY ht]
  have htopEq : List.insertionSort leX [a', b'] = List.insertionSort leX [a, b] := by
    rcases pair_perm htop with ⟨u1, u2⟩ | ⟨u1, u2⟩
    · rw [u1, u2]
    · have hay : a.y = b.y := by rw [← e1, u1]
      by_cases hx : a.x = b.x
      · rw [u1, u2, pt_ext hx hay]
      · rw [u1, u2, insertionSort_pair_swap hx]
  have hbotEq : List.insertionSort leX [c', d'] = List.insertionSort leX [c, d] := by
    rcases pair_perm hbot with ⟨v1, v2⟩ | ⟨v1, v2⟩
    · rw [v1, v2]
    · have hcy : c.y = d.y := by rw [← e3, v1]
      by_cases hx : c.x = d.x
      · rw [v1, v2, pt_ext hx hcy]
      · rw [v1, v2, insertionSort_pair_swap hx]
  rw [htopEq, hbotEq]

/-- C1 (witness): the amended permutation-invariance theorem applied to a
concrete convex quadrilateral and a concrete permutation of it — one whose
top pair (0,0), (0,6) shares the x coordinate, exercising the fact that the
strict y-gap alone suffices. -/
theorem order_corners_perm_invariant_witness :
    orderCorners [(⟨6, 16⟩ : Pt), ⟨0, 6⟩, ⟨12, 7⟩, ⟨0, 0⟩] =
      orderCorners [⟨0, 0⟩, ⟨12, 7⟩, ⟨6, 16⟩, ⟨0, 6⟩] :=
  order_corners_perm_invariant [⟨0, 0⟩, ⟨12, 7⟩, ⟨6, 16⟩, ⟨0, 6⟩]
    [⟨6, 16⟩, ⟨0, 6⟩, ⟨12, 7⟩, ⟨0, 0⟩] (by decide) (by decide)

/-- C10: for any four input points, `_order_corners_tl_tr_br_bl_np` returns a
rearrangement of exactly those four points (nothing created, dropped or
duplicated), and the output always satisfies TL.x ≤ TR.x, BL.x ≤ BR.x, and
every top-pair y coordinate is at most every bottom-pair y coordinate. -/
theorem order_corners_output_invariants (l : List Pt) (h : l.length = 4) :
    ∃ tl tr br bl : Pt, orderCorners l = [tl, tr, br, bl] ∧
      (orderCorners l).Perm l ∧ tl.x ≤ tr.x ∧ bl.x ≤ br.x ∧
      tl.y ≤ bl.y ∧ tl.y ≤ br.y ∧ tr.y ≤ bl.y ∧ tr.y ≤ br.y := by
  have hslen : (sortY l).length = 4 := by
    rw [sortY, List.length_insertionSort, h]
  obtain ⟨a, b, c, d, hs⟩ := list_len4 hslen
  have hsor : List.Sorted leY (sortY l) := List.sorted_insertionSort leY l
  rw [hs] at hsor
  simp only [List.sorted_cons, List.mem_cons, List.not_mem_nil, or_false,
    forall_eq_or_imp, forall_eq, List.sorted_nil, and_true, leY] at hsor
  obtain ⟨⟨hab, hac, had⟩, ⟨hbc, hbd⟩, hcd, -⟩ := hsor
  by_cases h1 : a.x ≤ b.x <;> by_cases h2 : c.x ≤ d.x
  · have heq : orderCorners l = [a, b, d, c] := by
      rw [orderCorners_eq_of_sortY hs, insertionSort_pair, insertionSort_pair,
        if_pos h1, if_pos h2]
      rfl
    exact ⟨a, b, d, c, heq, heq ▸ orderCorners_perm l, h1, h2, hac, had, hbc, hbd⟩
  · have heq : orderCorners l = [a, b, c, d] := by
      rw [orderCorners_eq_of_sortY hs, insertionSort_pair, insertionSort_pair,
        if_pos h1, if_neg h2]
      rfl
    exact ⟨a, b, c, d, heq, heq ▸ orderCorners_perm l, h1,
      (not_le.mp h2).le, had, hac, hbd, hbc⟩
  · have heq : orderCorners l = [b, a, d, c] := by
      rw [orderCorners_eq_of_sortY hs, insertionSort_pair, insertionSort_pair,
        if_neg h1, if_pos h2]
      rfl
    exact ⟨b, a, d, c, heq, heq ▸ orderCorners_perm l,
      (not_le.mp h1).le, h2, hbc, hbd, hac, had⟩
  · have heq : orderCorners l = [b, a, c, d] := by
      rw [orderCorners_eq_of_sortY hs, insertionSort_pair, insertionSort_pair,
        if_neg h1, if_neg h2]
      rfl
    exact ⟨b, a, c, d, heq, heq ▸ orderCorners_perm l,
      (not_le.mp h1).le, (not_le.mp h2).le, hbd, hbc, had, hac⟩

/-! The rectifying warp `_warp_by_corners` (src/app.py lines 46-67).

The destination geometry (canvas width and height, margin, destination
corner rectangle) is pure rational/integer arithmetic and is embedded
exactly, including Python's round-half-to-even `round`.  The homography
solve (`cv2.getPerspectiveTransform`) and the warp resampling kernel
(`cv2.warpPerspective` with INTER_CUBIC) produce pixel *content* only;
they never influence the output dimensions, so they enter the model as
arbitrary function parameters.  The final `cv2.resize` of the
`enforce_axes` branch *is* modelled concretely (OpenCV's separable
INTER_CUBIC resampler with pixel-centre coordinate convention and
replicate borders), because claim C8 is about that resample being an
identity when its target size equals the source size. -/

/-- Python's built-in `round`: round half to even (the source computes
`int(round(...))`, and `round` on a float already returns an integer). -/
def roundHalfEven (x : ℚ) : ℤ :=
  let f := ⌊x⌋
  let r := x - (f : ℚ)
  if r < 1 / 2 then f
  else if 1 / 2 < r then f + 1
  else if 2 ∣ f then f else f + 1

/-- A raster image: a pixel grid with its dimensions; the pixel value type
is abstracted as ℚ (channel layout is irrelevant to every claim). -/
structure Raster where
  width : ℤ
  height : ℤ
  pix : ℤ → ℤ → ℚ

/-- Equality of rasters as images: identical dimensions and identical pixel
values at every in-range coordinate. -/
def Raster.Equiv (r s : Raster) : Prop :=
  r.width = s.width ∧ r.height = s.height ∧
  ∀ x y : ℤ, 0 ≤ x → x < r.width → 0 ≤ y → y < r.height → r.pix x y = s.pix x y

/-- A 3×3 homography matrix. -/
def Mat3 : Type := Fin 3 → Fin 3 → ℚ

/-- The 4-point homography solver `cv2.getPerspectiveTransform`, taken as a
function parameter: the dimension and no-op claims hold for every solver. -/
abbrev HSolver : Type := List Pt → List Pt → Mat3

/-- The resampling kernel used by `cv2.warpPerspective` (INTER_CUBIC), taken
as a function parameter: it determines pixel content only, never size. -/
abbrev WKernel : Type := Raster → Mat3 → ℤ → ℤ → ℚ

/-- `cv2.warpPerspective(image, Hmat, (W, H))`: a W×H canvas whose content is
produced by the resampling kernel from the source and the homography. -/
def cvWarpPerspective (interp : WKernel) (src : Raster) (hmat : Mat3)
    (w h : ℤ) : Raster :=
  ⟨w, h, fun x y => interp src hmat x y⟩

/-- Coefficient of the tap at offset -1 in OpenCV's INTER_CUBIC interpolation
(`interpolateCubic`, Keys kernel with A = -0.75), for fractional offset t. -/
def cubicCoeff0 (t : ℚ) : ℚ :=
  ((-3 / 4 * (t + 1) - 5 * (-3 / 4)) * (t + 1) + 8 * (-3 / 4)) * (t + 1) -
    4 * (-3 / 4)

/-- Coefficient of the tap at offset 0 in OpenCV's INTER_CUBIC interpolation. -/
def cubicCoeff1 (t : ℚ) : ℚ :=
  ((-3 / 4 + 2) * t - (-3 / 4 + 3)) * t * t + 1

/-- Coefficient of the tap at offset +1 in OpenCV's INTER_CUBIC interpolation. -/
def cubicCoeff2 (t : ℚ) : ℚ :=
  ((-3 / 4 + 2) * (1 - t) - (-3 / 4 + 3)) * (1 - t) * (1 - t) + 1

/-- Coefficient of the tap at offset +2 in OpenCV's INTER_CUBIC interpolation
(the residual making the four weights sum to 1). -/
def cubicCoeff3 (t : ℚ) : ℚ := 1 - cubicCoeff0 t - cubicCoeff1 t - cubicCoeff2 t

/-- Replicate-border clamping of an index into the range [0, n). -/
def clampIdx (n i : ℤ) : ℤ := max 0 (min i (n - 1))

/-- One horizontal 4-tap cubic pass of the resampler, at source row j, around
source column sx with fractional offset tx. -/
def cubicRow (src : Raster) (sx : ℤ) (tx : ℚ) (j : ℤ) : ℚ :=
  cubicCoeff0 tx * src.pix (clampIdx src.width (sx - 1)) (clampIdx src.height j) +
  cubicCoeff1 tx * src.pix (clampIdx src.width sx) (clampIdx src.height j) +
  cubicCoeff2 tx * src.pix (clampIdx src.width (sx + 1)) (clampIdx src.height j) +
  cubicCoeff3 tx * src.pix (clampIdx src.width (sx + 2)) (clampIdx src.height j)

/-- Full separable 4×4-tap bicubic sample of the source at position (fx, fy). -/
def cubicSample (src : Raster) (fx fy : ℚ) : ℚ :=
  cubicCoeff0 (fy - (⌊fy⌋ : ℚ)) * cubicRow src ⌊fx⌋ (fx - (⌊fx⌋ : ℚ)) (⌊fy⌋ - 1) +
  cubicCoeff1 (fy - (⌊fy⌋ : ℚ)) * cubicRow src ⌊fx⌋ (fx - (⌊fx⌋ : ℚ)) ⌊fy⌋ +
  cubicCoeff2 (fy - (⌊fy⌋ : ℚ)) * cubicRow src ⌊fx⌋ (fx - (⌊fx⌋ : ℚ)) (⌊fy⌋ + 1) +
  cubicCoeff3 (fy - (⌊fy⌋ : ℚ)) * cubicRow src ⌊fx⌋ (fx - (⌊fx⌋ : ℚ)) (⌊fy⌋ + 2)

/-- OpenCV's source coordinate for destination index i when resizing an
extent of n source pixels to N destination pixels, under the pixel-centre
convention: fx = (i + 0.5)·(n/N) - 0.5. -/
def srcCoord (n N i : ℤ) : ℚ := ((i : ℚ) + 1 / 2) * ((n : ℚ) / (N : ℚ)) - 1 / 2

/-- `cv2.resize(src, (W, H), interpolation=cv2.INTER_CUBIC)`. -/
def resizeCubic (src : Raster) (w h : ℤ) : Raster :=
  ⟨w, h, fun x y =>
    cubicSample src (srcCoord src.width w x) (srcCoord src.height h y)⟩

/-- `_warp_by_corners` (src/app.py lines 46-67): derive the canvas geometry
from the physical spec, order the source corners, solve the homography to
the destination rectangle, warp, and optionally resample once more to the
same (W, H).  `px_per_mm` falls back to 4 when dpi is falsy (0 here; the
`margin_mm or 0.0` of the source is the identity on rationals). -/
def warpByCorners (solve : HSolver) (interp : WKernel) (image : Raster)
    (pts : List Pt) (width_mm height_mm dpi margin_mm : ℚ)
    (enforce_axes : Bool) : Raster :=
  let px_per_mm : ℚ := if dpi ≠ 0 then dpi / 25.4 else 4
  let wRect := roundHalfEven (width_mm * px_per_mm)
  let hRect := roundHalfEven (height_mm * px_per_mm)
  let m := roundHalfEven (margin_mm * px_per_mm)
  let w := wRect + 2 * m
  let h := hRect + 2 * m
  let src := orderCorners pts
  let dst : List Pt :=
    [⟨(m : ℚ), (m : ℚ)⟩, ⟨((m + wRect : ℤ) : ℚ), (m : ℚ)⟩,
     ⟨((m + wRect : ℤ) : ℚ), ((m + hRect : ℤ) : ℚ)⟩,
     ⟨(m : ℚ), ((m + hRect : ℤ) : ℚ)⟩]
  let hmat := solve src dst
  let rect := cvWarpPerspective interp image hmat w h
  if enforce_axes then resizeCubic rect w h else rect

/-- A trivial homography solver, used to instantiate closed statements. -/
def hsolver0 : HSolver := fun _ _ => fun _ _ => 0

/-- A trivial warp kernel, used to instantiate closed statements. -/
def wkernel0 : WKernel := fun _ _ _ _ => 0

/-- A concrete 1×1 raster, used to instantiate closed statements. -/
def raster0 : Raster := ⟨1, 1, fun _ _ => 0⟩

/-- Four collinear points on the main diagonal. -/
def collinearPts : List Pt := [⟨0, 0⟩, ⟨1, 1⟩, ⟨2, 2⟩, ⟨3, 3⟩]

/-! Identity of the same-size INTER_CUBIC resample. -/

theorem clampIdx_eq {n i : ℤ} (h0 : 0 ≤ i) (h : i < n) : clampIdx n i = i := by
  unfold clampIdx
  omega

theorem cubicCoeff0_zero : cubicCoeff0 0 = 0 := by norm_num [cubicCoeff0]

theorem cubicCoeff1_zero : cubicCoeff1 0 = 1 := by norm_num [cubicCoeff1]

theorem cubicCoeff2_zero : cubicCoeff2 0 = 0 := by norm_num [cubicCoeff2]

theorem cubicCoeff3_zero : cubicCoeff3 0 = 0 := by
  norm_num [cubicCoeff3, cubicCoeff0, cubicCoeff1, cubicCoeff2]

theorem cubicRow_zero (src : Raster) (sx j : ℤ) :
    cubicRow src sx 0 j =
      src.pix (clampIdx src.width sx) (clampIdx src.height j) := by
  simp [cubicRow, cubicCoeff0_zero, cubicCoeff1_zero, cubicCoeff2_zero,
    cubicCoeff3_zero]

theorem cubicSample_int (src : Raster) (x y : ℤ) :
    cubicSample src (x : ℚ) (y : ℚ) =
      src.pix (clampIdx src.width x) (clampIdx src.height y) := by
  simp [cubicSample, Int.floor_intCast, cubicRow_zero, cubicCoeff0_zero,
    cubicCoeff1_zero, cubicCoeff2_zero, cubicCoeff3_zero]

theorem resizeCubic_self (r : Raster) :
    (resizeCubic r r.width r.height).Equiv r := by
  refine ⟨rfl, rfl, ?_⟩
  intro x y hx0 hxw hy0 hyh
  replace hxw : x < r.width := hxw
  replace hyh : y < r.height := hyh
  have hwpos : (0 : ℤ) < r.width := lt_of_le_of_lt hx0 hxw
  have hhpos : (0 : ℤ) < r.height := lt_of_le_of_lt hy0 hyh
  have hw : ((r.width : ℚ)) ≠ 0 := by exact_mod_cast hwpos.ne'
  have hh : ((r.height : ℚ)) ≠ 0 := by exact_mod_cast hhpos.ne'
  show cubicSample r (srcCoord r.width r.width x) (srcCoord r.height r.height y)
      = r.pix x y
  have hfx : srcCoord r.width r.width x = (x : ℚ) := by
    unfold srcCoord
    rw [div_self hw]
    ring
  have hfy : srcCoord r.height r.height y = (y : ℚ) := by
    unfold srcCoord
    rw [div_self hh]
    ring
  rw [hfx, hfy, cubicSample_int, clampIdx_eq hx0 hxw, clampIdx_eq hy0 hyh]

/-- C2: with width_mm = 100, height_mm = 50, dpi = 300, margin_mm = 10, the
raster produced by `_warp_by_corners` measures exactly 1417×827 pixels
(W_rect = 1181, H_rect = 591, M = 118), for every source image, every corner
list, both values of enforce_axes, and every homography solver and warp
kernel: the output size is a function of the physical spec alone. -/
theorem warp_dimension_law (solve : HSolver) (interp : WKernel) (image : Raster)
    (pts : List Pt) (enforce_axes : Bool) :
    (warpByCorners solve interp image pts 100 50 300 10 enforce_axes).width
        = 1417 ∧
      (warpByCorners solve interp image pts 100 50 300 10 enforce_axes).height
        = 827 := by
  cases enforce_axes <;>
    · simp only [warpByCorners, cvWarpPerspective, resizeCubic]
      norm_num [roundHalfEven]

theorem warpByCorners_true_eq (solve : HSolver) (interp : WKernel)
    (image : Raster) (pts : List Pt) (width_mm height_mm dpi margin_mm : ℚ) :
    warpByCorners solve interp image pts width_mm height_mm dpi margin_mm true =
      resizeCubic
        (warpByCorners solve interp image pts width_mm height_mm dpi margin_mm
          false)
        (warpByCorners solve interp image pts width_mm height_mm dpi margin_mm
          false).width
        (warpByCorners solve interp image pts width_mm height_mm dpi margin_mm
          false).height := rfl

/-- C8: for every source image, corner list and physical spec reaching the
warp, the raster returned with enforce_axes = true is identical (as an
image: same dimensions, same pixel values everywhere in range) to the raster
returned with enforce_axes = false — the extra `cv2.resize` targets exactly
the W×H the warp already produced, and a same-size INTER_CUBIC resample
reproduces every pixel exactly. -/
theorem enforce_axes_resample_noop (solve : HSolver) (interp : WKernel)
    (image : Raster) (pts : List Pt) (width_mm height_mm dpi margin_mm : ℚ) :
    (warpByCorners solve interp image pts width_mm height_mm dpi margin_mm
        true).Equiv
      (warpByCorners solve interp image pts width_mm height_mm dpi margin_mm
        false) := by
  rw [warpByCorners_true_eq]
  exact resizeCubic_self _

/-- C3 (code refutation): four exactly collinear points produce no
GeometryError anywhere — no such error exists in src/app.py.
`_order_corners_tl_tr_br_bl_np` happily labels the collinear points, and
`_warp_by_corners` proceeds to emit a full-size 1417×827 canvas for them. -/
theorem order_corners_collinear_no_geometry_error :
    orderCorners collinearPts = [⟨0, 0⟩, ⟨1, 1⟩, ⟨3, 3⟩, ⟨2, 2⟩] ∧
    (warpByCorners hsolver0 wkernel0 raster0 collinearPts 100 50 300 10
        true).width = 1417 ∧
    (warpByCorners hsolver0 wkernel0 raster0 collinearPts 100 50 300 10
        true).height = 827 := by
  refine ⟨by decide, ?_, ?_⟩ <;>
    · simp only [warpByCorners, cvWarpPerspective, resizeCubic]
      norm_num [roundHalfEven]

/-- C4 (code refutation): `_warp_by_corners` performs no validation of the
physical spec: with width_mm = 0 (and the defaults height_mm = 50,
dpi = 300, margin_mm = 10) it raises nothing and returns a 236×827
margin-only canvas instead of an InvalidInputError. -/
theorem warp_zero_width_no_error :
    (warpByCorners hsolver0 wkernel0 raster0 collinearPts 0 50 300 10
        true).width = 236 ∧
    (warpByCorners hsolver0 wkernel0 raster0 collinearPts 0 50 300 10
        true).height = 827 := by
  constructor <;>
    · simp only [warpByCorners, cvWarpPerspective, resizeCubic]
      norm_num [roundHalfEven]

/-! The axis-alignment rotation `_align_image_by_edge` (src/app.py lines
69-150).

The candidate-selection and normalisation arithmetic (lines 93-125) is
pure rational arithmetic and is embedded exactly: Python's float `%` on a
positive modulus is `x - 360*⌊x/360⌋`.  The front end `math.atan2`
(lines 85-88) is transcendental; it is modelled exactly at the inputs
whose degree measure is rational — the two axes and the two diagonals,
which by Niven's theorem are the only rational points with rational
degree measure, and the only inputs the concrete claims exercise — and is
`none` elsewhere.  The theorem about the minimal-rotation bound
quantifies over the incoming angle instead, covering every possible
`atan2` output.  Likewise the cosine/sine entries of
`cv2.getRotationMatrix2D` are modelled exactly at the quarter-turn
angles, the only ones with rational cosine and sine. -/

/-- Python's `((x + 180) % 360) - 180` on a float: normalisation of an angle
into [-180, 180) (the `%` of a positive modulus is `x - 360*⌊x/360⌋`). -/
def norm180 (x : ℚ) : ℚ := (x + 180) - 360 * (⌊(x + 180) / 360⌋ : ℚ) - 180

/-- The edge direction requested by the caller of `_align_image_by_edge`. -/
inductive Direction where
  | horizontal
  | vertical
deriving DecidableEq

/-- The candidate-selection logic of `_align_image_by_edge`
(src/app.py lines 93-125), as a function of the math-convention edge angle
`degrees(atan2(dy, dx))`: negate it (pixel y grows downward), build the two
candidate rotations for the requested direction, normalise both into
[-180, 180), and keep the one of smaller absolute value. -/
def rotationFromAngle : Direction → ℚ → ℚ
  | .horizontal, mathDeg =>
    let angle_deg := -mathDeg
    let rot_to_0 := -angle_deg
    let rot_to_180 := 180 - angle_deg
    let n0 := norm180 rot_to_0
    let n180 := norm180 rot_to_180
    if |n0| ≤ |n180| then n0 else n180
  | .vertical, mathDeg =>
    let angle_deg := -mathDeg
    let rot_to_90 := 90 - angle_deg
    let rot_to_m90 := -90 - angle_deg
    let n90 := norm180 rot_to_90
    let nm90 := norm180 rot_to_m90
    if |n90| ≤ |nm90| then n90 else nm90

/-- `math.atan2 dy dx` in degrees, modelled exactly at the arguments whose
degree measure is rational: the four half-axes (including atan2(0,0) = 0,
as in Python) and the two diagonals.  All other arguments have irrational
degree measure (Niven), are not exercised by any concrete claim, and map
to `none`. -/
def atan2Deg (dy dx : ℚ) : Option ℚ :=
  if dy = 0 then some (if 0 ≤ dx then 0 else 180)
  else if dx = 0 then some (if 0 < dy then 90 else -90)
  else if dy = dx then some (if 0 < dx then 45 else -135)
  else if dy = -dx then some (if 0 < dx then -45 else 135)
  else none

/-- The rotation angle `_align_image_by_edge` selects for the edge from p1
to p2 (src/app.py lines 85-125): the degree angle of (dx, dy) fed through
the candidate-selection logic. -/
def alignRotation (p1 p2 : Pt) (dir : Direction) : Option ℚ :=
  (atan2Deg (p2.y - p1.y) (p2.x - p1.x)).map (rotationFromAngle dir)

/-- Cosine of an angle in degrees, modelled exactly at the quarter-turn
angles (the only rational-degree angles with rational cosine needed here);
`none` elsewhere. -/
def cosDeg (d : ℚ) : Option ℚ :=
  if d = 0 then some 1
  else if d = 90 ∨ d = -90 then some 0
  else if d = 180 ∨ d = -180 then some (-1)
  else none

/-- Sine of an angle in degrees, modelled exactly at the quarter-turn
angles; `none` elsewhere. -/
def sinDeg (d : ℚ) : Option ℚ :=
  if d = 0 then some 0
  else if d = 90 then some 1
  else if d = -90 then some (-1)
  else if d = 180 ∨ d = -180 then some 0
  else none

/-- The expanded canvas size of `_align_image_by_edge` (src/app.py lines
134-138): `new_w = int(h*|sin| + w*|cos|)`, `new_h = int(h*|cos| + w*|sin|)`
where cos and sin are the entries of the `cv2.getRotationMatrix2D` rotation
matrix for the selected angle (`int` truncates; the operands are
non-negative, so it is the floor). -/
def rotatedDims (w h : ℤ) (d : ℚ) : Option (ℤ × ℤ) :=
  match cosDeg d, sinDeg d with
  | some c, some s =>
    some (⌊(h : ℚ) * |s| + (w : ℚ) * |c|⌋, ⌊(h : ℚ) * |c| + (w : ℚ) * |s|⌋)
  | _, _ => none

/-- The resampling kernel of `cv2.warpAffine` (INTER_CUBIC, constant white
border), taken as a parameter: it receives the source and the selected
rotation angle and determines pixel content only, never the canvas size. -/
abbrev AKernel : Type := Raster → ℚ → ℤ → ℤ → ℚ

/-- `_align_image_by_edge` (src/app.py lines 69-150): select the minimal
rotation for the requested direction, compute the expanded canvas that
avoids cropping, and resample.  `none` only where the transcendental
front-end of the model is undefined; the Python function itself raises
nothing and always returns a raster. -/
def alignImageByEdge (interp : AKernel) (image : Raster) (p1 p2 : Pt)
    (dir : Direction) : Option Raster :=
  match alignRotation p1 p2 dir with
  | none => none
  | some d =>
    match rotatedDims image.width image.height d with
    | none => none
    | some (nw, nh) => some ⟨nw, nh, fun x y => interp image d x y⟩

/-- A trivial alignment kernel, used to instantiate closed statements. -/
def akernel0 : AKernel := fun _ _ _ _ => 0

/-! Range and shift lemmas for the angle normalisation. -/

theorem norm180_mem (x : ℚ) : -180 ≤ norm180 x ∧ norm180 x < 180 := by
  have h0 : norm180 x = 360 * Int.fract ((x + 180) / 360) - 180 := by
    rw [norm180, Int.fract]
    field_simp
  have h1 := Int.fract_nonneg ((x + 180) / 360)
  have h2 := Int.fract_lt_one ((x + 180) / 360)
  constructor <;> rw [h0] <;> linarith

theorem norm180_eqOf {x y : ℚ} (k : ℤ) (hxy : x - y = 360 * (k : ℚ))
    (h1 : -180 ≤ y) (h2 : y < 180) : norm180 x = y := by
  have hx : x = y + 360 * (k : ℚ) := by linarith
  have hfloor : ⌊(x + 180) / 360⌋ = k := by
    rw [hx]
    have hsplit : (y + 360 * (k : ℚ) + 180) / 360 = (y + 180) / 360 + (k : ℚ) := by
      ring
    rw [hsplit, Int.floor_add_int]
    have h3 : ⌊(y + 180) / 360⌋ = 0 := by
      apply Int.floor_eq_zero_iff.mpr
      refine Set.mem_Ico.mpr ⟨div_nonneg (by linarith) (by norm_num), ?_⟩
      rw [div_lt_one (by norm_num)]
      linarith
    omega
  rw [norm180, hfloor, hx]
  ring

theorem norm180_shift (x : ℚ) :
    norm180 (x + 180) =
      if norm180 x < 0 then norm180 x + 180 else norm180 x - 180 := by
  obtain ⟨h1, h2⟩ := norm180_mem x
  obtain ⟨k, hk⟩ : ∃ k : ℤ, x - norm180 x = 360 * (k : ℚ) :=
    ⟨⌊(x + 180) / 360⌋, by rw [norm180]; ring⟩
  by_cases hneg : norm180 x < 0
  · rw [if_pos hneg]
    exact norm180_eqOf k (by linarith) (by linarith) (by linarith)
  · rw [if_neg hneg]
    refine norm180_eqOf (k + 1) ?_ (by linarith) (by linarith)
    push_cast
    linarith

theorem min_norm180_le_90 (x : ℚ) :
    |norm180 x| ≤ 90 ∨ |norm180 (x + 180)| ≤ 90 := by
  obtain ⟨h1, h2⟩ := norm180_mem x
  rw [norm180_shift x]
  by_cases hneg : norm180 x < 0
  · rw [if_pos hneg]
    by_cases h90 : -90 ≤ norm180 x
    · left
      rw [abs_le]
      constructor <;> linarith
    · right
      rw [abs_le]
      constructor <;> linarith
  · rw [if_neg hneg]
    by_cases h90 : norm180 x ≤ 90
    · left
      rw [abs_le]
      constructor <;> linarith
    · right
      rw [abs_le]
      push_neg at hneg
      constructor <;> linarith

/-- C6: for every direction and every incoming edge angle (hence for every
pair of distinct edge endpoints), the rotation selected by
`_align_image_by_edge` — the candidate of minimal absolute value among the
two normalised candidates that satisfy the target orientation — has
absolute value at most 90 degrees. -/
theorem align_minimal_rotation_le_90 (dir : Direction) (mathDeg : ℚ) :
    |rotationFromAngle dir mathDeg| ≤ 90 := by
  cases dir
  case horizontal =>
    simp only [rotationFromAngle]
    rw [neg_neg, show (180 : ℚ) - -mathDeg = mathDeg + 180 from by ring]
    rcases min_norm180_le_90 mathDeg with h | h <;> split <;> rename_i hc
    · exact h
    · have := not_le.mp hc
      linarith
    · linarith
    · exact h
  case vertical =>
    simp only [rotationFromAngle]
    rw [show (90 : ℚ) - -mathDeg = (mathDeg - 90) + 180 from by ring,
      show (-90 : ℚ) - -mathDeg = mathDeg - 90 from by ring]
    rcases min_norm180_le_90 (mathDeg - 90) with h | h <;> split <;> rename_i hc
    · linarith
    · exact h
    · exact h
    · have := not_le.mp hc
      linarith

/-- C7 (counterexample): for the edge from (0,0) to (10,10) the claim states
a rotation of -45 degrees for direction horizontal and +45 for vertical;
the code selects the opposite signs, so the claim is false at this input. -/
theorem align_diag_rotation_sign_cex :
    ¬ (alignRotation ⟨0, 0⟩ ⟨10, 10⟩ .horizontal = some (-45) ∧
       alignRotation ⟨0, 0⟩ ⟨10, 10⟩ .vertical = some 45) := by
  norm_num [alignRotation, atan2Deg, rotationFromAngle, norm180,
    Int.floor_eq_iff]

/-- C7 (amended): for the edge from (0,0) to (10,10) — math angle
atan2(10,10) = 45 degrees — `_align_image_by_edge` selects a rotation of
+45 degrees (not -135) when direction is horizontal, and -45 degrees
(not +135) when direction is vertical. -/
theorem align_diag_rotation_amended :
    alignRotation ⟨0, 0⟩ ⟨10, 10⟩ .horizontal = some 45 ∧
    alignRotation ⟨0, 0⟩ ⟨10, 10⟩ .vertical = some (-45) := by
  constructor <;>
    norm_num [alignRotation, atan2Deg, rotationFromAngle, norm180,
      Int.floor_eq_iff]

/-- C9: for every edge with dy = 0 and direction horizontal,
`_align_image_by_edge` selects a rotation of exactly 0 degrees and returns
a raster whose width and height equal those of the input raster. -/
theorem align_horizontal_idempotent (interp : AKernel) (image : Raster)
    (p1 p2 : Pt) (hdy : p2.y = p1.y) :
    alignRotation p1 p2 .horizontal = some 0 ∧
    ∃ r : Raster, alignImageByEdge interp image p1 p2 .horizontal = some r ∧
      r.width = image.width ∧ r.height = image.height := by
  have hz : p2.y - p1.y = 0 := by rw [hdy]; ring
  have hrot : alignRotation p1 p2 .horizontal = some 0 := by
    rcases le_or_lt 0 (p2.x - p1.x) with hdx | hdx
    · simp only [alignRotation, atan2Deg, hz, if_pos rfl, if_pos hdx,
        Option.map_some]
      norm_num [rotationFromAngle, norm180, Int.floor_eq_iff]
    · simp only [alignRotation, atan2Deg, hz, if_pos rfl,
        if_neg (not_le.mpr hdx), Option.map_some]
      norm_num [rotationFromAngle, norm180, Int.floor_eq_iff]
  have hdims : rotatedDims image.width image.height 0 =
      some (image.width, image.height) := by
    simp [rotatedDims, cosDeg, sinDeg]
  refine ⟨hrot, ⟨image.width, image.height, fun x y => interp image 0 x y⟩,
    ?_, rfl, rfl⟩
  simp [alignImageByEdge, hrot, hdims]

/-- C9 (witness): the alignment-idempotence theorem applied to the concrete
horizontal edge (0,3)-(7,3) on the concrete 1×1 raster. -/
theorem align_horizontal_idempotent_witness :
    alignRotation ⟨0, 3⟩ ⟨7, 3⟩ .horizontal = some 0 ∧
    ∃ r : Raster,
      alignImageByEdge akernel0 raster0 ⟨0, 3⟩ ⟨7, 3⟩ .horizontal = some r ∧
      r.width = raster0.width ∧ r.height = raster0.height :=
  align_horizontal_idempotent akernel0 raster0 ⟨0, 3⟩ ⟨7, 3⟩ rfl

/-- C5 (code refutation): with both edge endpoints equal to (5,5) — edge
length zero, angle mathematically undefined — `_align_image_by_edge` raises
nothing: Python's atan2(0,0) is 0, the selected rotation is 0 degrees, and
a raster of the unchanged size is returned instead of a GeometryError. -/
theorem align_zero_length_edge_no_error :
    alignRotation ⟨5, 5⟩ ⟨5, 5⟩ .horizontal = some 0 ∧
    ∃ r : Raster,
      alignImageByEdge akernel0 raster0 ⟨5, 5⟩ ⟨5, 5⟩ .horizontal = some r ∧
      r.width = 1 ∧ r.height = 1 := by
  have hrot : alignRotation ⟨5, 5⟩ ⟨5, 5⟩ .horizontal = some 0 := by
    norm_num [alignRotation, atan2Deg, rotationFromAngle, norm180,
      Int.floor_eq_iff]
  have hdims : rotatedDims raster0.width raster0.height 0 = some (1, 1) := by
    norm_num [rotatedDims, cosDeg, sinDeg, raster0]
  exact ⟨hrot, ⟨1, 1, fun x y => akernel0 raster0 0 x y⟩,
    by simp [alignImageByEdge, hrot, hdims], rfl, rfl⟩

/-- C10 (witness): the output-invariant theorem applied to a concrete list of
four points. -/
theorem order_corners_output_invariants_witness :
    ∃ tl tr br bl : Pt,
      orderCorners [(⟨3, 4⟩ : Pt), ⟨0, 0⟩, ⟨5, 1⟩, ⟨1, 5⟩] = [tl, tr, br, bl] ∧
      (orderCorners [(⟨3, 4⟩ : Pt), ⟨0, 0⟩, ⟨5, 1⟩, ⟨1, 5⟩]).Perm
        [⟨3, 4⟩, ⟨0, 0⟩, ⟨5, 1⟩, ⟨1, 5⟩] ∧
      tl.x ≤ tr.x ∧ bl.x ≤ br.x ∧
      tl.y ≤ bl.y ∧ tl.y ≤ br.y ∧ tr.y ≤ bl.y ∧ tr.y ≤ br.y :=
  order_corners_output_invariants [⟨3, 4⟩, ⟨0, 0⟩, ⟨5, 1⟩, ⟨1, 5⟩] (by decide)

end Rectifier
